import Mathlib

set_option maxHeartbeats 1000000

/-!
Verification development for the Xapian database access layer
(`xapian-core/include/xapian/database.h`).

The repository ships the interface header only, so the behaviour of the
aggregation (read) path and of the mutation-buffer (write) path is modelled
here from the documented contracts: the k-way merge iterators, the docid
interleaving across shards, aggregate statistics, and the writable-database
mutation buffer with its transaction state machine.
-/

namespace Xapian

/-! ### K-way merge over per-shard streams

Modelled from the spec: postings and terms use a k-way merge ordered by
global docid (postings) or lexicographic term (terms), advancing the shard
whose next element is smallest; on term ties across shards, frequencies are
summed into one merged entry. -/

/-- Total number of buffered elements across a list of streams. -/
def totalLen {β : Type} (ss : List (List β)) : Nat := (ss.map List.length).sum

/-- Modelled from the spec: find the stream whose next element has the
smallest key, returning its index together with that element.  On a tie the
earliest shard wins (ties cannot occur for postings, whose global docids are
distinct across shards). -/
def bestIdx {α : Type} [LinearOrder α] : List (List (α × Nat)) → Option (Nat × (α × Nat))
  | [] => none
  | [] :: rest => (bestIdx rest).map (fun p => (p.1 + 1, p.2))
  | (e :: _) :: rest =>
    match bestIdx rest with
    | none => some (0, e)
    | some q => if e.1 ≤ q.2.1 then some (0, e) else some (q.1 + 1, q.2)

/-- Advance (pop the head of) the stream at index `i`. -/
def advanceAt {β : Type} : List (List β) → Nat → List (List β)
  | [], _ => []
  | s :: rest, 0 => s.tail :: rest
  | s :: rest, n + 1 => s :: advanceAt rest n

theorem bestIdx_eq_none {α : Type} [LinearOrder α] :
    ∀ {ss : List (List (α × Nat))}, bestIdx ss = none → ∀ s ∈ ss, s = [] := by
  intro ss
  induction ss with
  | nil => intro _ s hs; cases hs
  | cons s rest ih =>
    intro h t ht
    cases s with
    | nil =>
      simp only [bestIdx] at h
      cases hb : bestIdx rest with
      | none =>
        cases ht with
        | head => rfl
        | tail _ ht2 => exact ih hb t ht2
      | some q => rw [hb] at h; simp at h
    | cons e s2 =>
      simp only [bestIdx] at h
      split at h
      · cases h
      · split at h <;> cases h

theorem bestIdx_get {α : Type} [LinearOrder α] :
    ∀ {ss : List (List (α × Nat))} {i : Nat} {e : α × Nat},
      bestIdx ss = some (i, e) → ∃ tl, ss.get? i = some (e :: tl) := by
  intro ss
  induction ss with
  | nil => intro i e h; cases h
  | cons s rest ih =>
    intro i e h
    cases s with
    | nil =>
      simp only [bestIdx] at h
      cases hb : bestIdx rest with
      | none => rw [hb] at h; simp at h
      | some q =>
        rw [hb] at h
        simp only [Option.map_some'] at h
        cases h
        obtain ⟨tl, htl⟩ := ih (i := q.1) (e := q.2) (by rw [hb])
        exact ⟨tl, by simpa using htl⟩
    | cons e2 s2 =>
      simp only [bestIdx] at h
      split at h
      · cases h
        exact ⟨s2, rfl⟩
      · split at h
        · cases h
          exact ⟨s2, rfl⟩
        · rename_i q hq hle
          cases h
          obtain ⟨tl, htl⟩ := ih (i := q.1) (e := q.2) (by rw [hq])
          exact ⟨tl, by simpa using htl⟩

theorem bestIdx_min {α : Type} [LinearOrder α] :
    ∀ {ss : List (List (α × Nat))} {i : Nat} {e : α × Nat},
      bestIdx ss = some (i, e) →
      ∀ s ∈ ss, ∀ a, s.head? = some a → e.1 ≤ a.1 := by
  intro ss
  induction ss with
  | nil => intro i e h; cases h
  | cons s rest ih =>
    intro i e h t ht a ha
    cases s with
    | nil =>
      simp only [bestIdx] at h
      cases hb : bestIdx rest with
      | none => rw [hb] at h; simp at h
      | some q =>
        rw [hb] at h
        simp only [Option.map_some'] at h
        cases h
        cases ht with
        | head => cases ha
        | tail _ ht2 => exact ih (i := q.1) (e := q.2) (by rw [hb]) t ht2 a ha
    | cons e2 s2 =>
      simp only [bestIdx] at h
      split at h
      · rename_i hq
        cases h
        cases ht with
        | head => cases ha; exact le_refl _
        | tail _ ht2 =>
          have : t = [] := bestIdx_eq_none hq t ht2
          subst this; cases ha
      · split at h
        · rename_i q hq hle
          cases h
          cases ht with
          | head => cases ha; exact le_refl _
          | tail _ ht2 =>
            exact le_trans hle (ih (i := q.1) (e := q.2) (by rw [hq]) t ht2 a ha)
        · rename_i q hq hle
          cases h
          cases ht with
          | head => cases ha; exact le_of_lt (lt_of_not_le hle)
          | tail _ ht2 => exact ih (i := q.1) (e := q.2) (by rw [hq]) t ht2 a ha

theorem bestIdx_cons_succ {α : Type} [LinearOrder α]
    {s : List (α × Nat)} {rest : List (List (α × Nat))} {i : Nat} {e : α × Nat}
    (h : bestIdx (s :: rest) = some (i + 1, e)) : bestIdx rest = some (i, e) := by
  cases s with
  | nil =>
    simp only [bestIdx] at h
    cases hb : bestIdx rest with
    | none => rw [hb] at h; simp at h
    | some q =>
      rw [hb] at h
      cases q with
      | mk j e2 =>
        simp only [Option.map_some', Option.some.injEq, Prod.mk.injEq] at h
        obtain ⟨h1, h2⟩ := h
        obtain rfl : j = i := by omega
        subst h2
        rfl
  | cons e2 s2 =>
    simp only [bestIdx] at h
    split at h
    · cases h
    · split at h
      · cases h
      · rename_i q hq hle
        cases q with
        | mk j e2 =>
          simp only [Option.some.injEq, Prod.mk.injEq] at h
          obtain ⟨h1, h2⟩ := h
          obtain rfl : j = i := by omega
          subst h2
          exact hq

theorem advanceAt_totalLen {β : Type} :
    ∀ {ss : List (List β)} {i : Nat} {e : β} {tl : List β},
      ss.get? i = some (e :: tl) → totalLen (advanceAt ss i) + 1 = totalLen ss := by
  intro ss
  induction ss with
  | nil => intro i e tl h; cases h
  | cons s rest ih =>
    intro i e tl h
    cases i with
    | zero =>
      simp only [List.get?] at h
      cases h
      simp [advanceAt, totalLen]
      omega
    | succ n =>
      simp only [List.get?] at h
      have := ih h
      simp only [advanceAt, totalLen, List.map_cons, List.sum_cons] at this ⊢
      omega

theorem advanceAt_flatten_perm {β : Type} :
    ∀ {ss : List (List β)} {i : Nat} {e : β} {tl : List β},
      ss.get? i = some (e :: tl) →
      List.Perm ss.flatten (e :: (advanceAt ss i).flatten) := by
  intro ss
  induction ss with
  | nil => intro i e tl h; cases h
  | cons s rest ih =>
    intro i e tl h
    cases i with
    | zero =>
      simp only [List.get?] at h
      cases h
      simp [advanceAt]
    | succ n =>
      simp only [List.get?] at h
      have hperm := ih h
      simp only [advanceAt, List.flatten_cons]
      exact List.Perm.trans (List.Perm.append_left s hperm) List.perm_middle

theorem advanceAt_sublist {β : Type} :
    ∀ (ss : List (List β)) (i : Nat),
      List.Forall₂ List.Sublist (advanceAt ss i) ss := by
  intro ss
  induction ss with
  | nil => intro i; exact List.Forall₂.nil
  | cons s rest ih =>
    intro i
    cases i with
    | zero =>
      refine List.Forall₂.cons (List.tail_sublist s) ?_
      exact List.forall₂_same.2 (fun x _ => List.Sublist.refl x)
    | succ n => exact List.Forall₂.cons (List.Sublist.refl s) (ih n)

/-- Modelled from the spec: the k-way merge of the per-shard streams.
Repeatedly emits the entry of the stream whose next element has the smallest
key and advances that stream. -/
def kmerge {α : Type} [LinearOrder α] (ss : List (List (α × Nat))) : List (α × Nat) :=
  match h : bestIdx ss with
  | none => []
  | some q => q.2 :: kmerge (advanceAt ss q.1)
termination_by totalLen ss
decreasing_by
  obtain ⟨tl, htl⟩ := bestIdx_get (i := q.1) (e := q.2) (by rw [h])
  have := advanceAt_totalLen htl
  omega

theorem kmerge_eq_nil {α : Type} [LinearOrder α] {ss : List (List (α × Nat))}
    (h : bestIdx ss = none) : kmerge ss = [] := by
  rw [kmerge.eq_def]
  split
  · rfl
  · rename_i q heq
    rw [h] at heq
    cases heq

theorem kmerge_eq_cons {α : Type} [LinearOrder α] {ss : List (List (α × Nat))}
    {q : Nat × (α × Nat)} (h : bestIdx ss = some q) :
    kmerge ss = q.2 :: kmerge (advanceAt ss q.1) := by
  rw [kmerge.eq_def]
  split
  · rename_i heq
    rw [h] at heq
    cases heq
  · rename_i q2 heq
    rw [h] at heq
    cases heq
    rfl

theorem flatten_eq_nil_of_all_nil {β : Type} :
    ∀ {ss : List (List β)}, (∀ s ∈ ss, s = []) → ss.flatten = [] := by
  intro ss
  induction ss with
  | nil => intro _; rfl
  | cons s rest ih =>
    intro h
    rw [List.flatten_cons, h s (List.mem_cons_self _ _),
      ih (fun t ht => h t (List.mem_cons_of_mem _ ht))]
    rfl

/-- The k-way merge emits exactly the entries of the shard streams. -/
theorem kmerge_perm {α : Type} [LinearOrder α] :
    ∀ (ss : List (List (α × Nat))), List.Perm (kmerge ss) ss.flatten := by
  intro ss
  generalize hn : totalLen ss = n
  induction n using Nat.strong_induction_on generalizing ss with
  | _ n ih =>
    cases hb : bestIdx ss with
    | none =>
      rw [kmerge_eq_nil hb, flatten_eq_nil_of_all_nil (bestIdx_eq_none hb)]
    | some q =>
      obtain ⟨tl, htl⟩ := bestIdx_get (i := q.1) (e := q.2) (by rw [hb])
      rw [kmerge_eq_cons hb]
      have hperm := advanceAt_flatten_perm htl
      have hlen := advanceAt_totalLen htl
      have ihp := ih (totalLen (advanceAt ss q.1)) (by omega) (advanceAt ss q.1) rfl
      exact (List.Perm.cons q.2 ihp).trans hperm.symm

theorem forall₂_sublist_mem {β : Type} {ss2 ss : List (List β)}
    (h : List.Forall₂ List.Sublist ss2 ss) :
    ∀ s2 ∈ ss2, ∃ s ∈ ss, List.Sublist s2 s := by
  induction h with
  | nil => intro s2 hs; cases hs
  | cons hab htail ih =>
    intro s2 hs
    cases hs with
    | head => exact ⟨_, List.mem_cons_self _ _, hab⟩
    | tail _ h2 =>
      obtain ⟨s, hs3, hsub⟩ := ih _ h2
      exact ⟨s, List.mem_cons_of_mem _ hs3, hsub⟩

theorem pairwise_of_forall₂_sublist {β : Type} {R : List β → List β → Prop}
    (hmono : ∀ s2 s t2 t, List.Sublist s2 s → List.Sublist t2 t → R s t → R s2 t2) :
    ∀ {ss2 ss : List (List β)}, List.Forall₂ List.Sublist ss2 ss →
      ss.Pairwise R → ss2.Pairwise R := by
  intro ss2 ss h
  induction h with
  | nil => intro _; exact List.Pairwise.nil
  | cons hab htail ih =>
    rename_i a b l1 l2
    intro hp
    rw [List.pairwise_cons] at hp ⊢
    obtain ⟨hhead, hp2⟩ := hp
    refine ⟨?_, ih hp2⟩
    intro t2 ht2
    obtain ⟨t, ht, hsub⟩ := forall₂_sublist_mem htail t2 ht2
    exact hmono a b t2 t hab hsub (hhead t ht)

/-- Every entry still buffered after advancing the winning stream has a key
strictly above the emitted one, provided streams are strictly sorted and keys
are distinct across streams. -/
theorem bestIdx_bound {α : Type} [LinearOrder α] :
    ∀ {ss : List (List (α × Nat))} {i : Nat} {e : α × Nat},
      bestIdx ss = some (i, e) →
      (∀ s ∈ ss, List.Pairwise (fun a b => a.1 < b.1) s) →
      List.Pairwise (fun s t => ∀ a ∈ s, ∀ b ∈ t, a.1 ≠ b.1) ss →
      ∀ x ∈ (advanceAt ss i).flatten, e.1 < x.1 := by
  intro ss
  induction ss with
  | nil => intro i e h _ _ x hx; cases h
  | cons s rest ih =>
    intro i e h hsort hcross x hx
    cases i with
    | zero =>
      obtain ⟨tl, htl⟩ := bestIdx_get h
      simp only [List.get?] at htl
      cases htl
      simp only [advanceAt, List.tail_cons, List.flatten_cons, List.mem_append] at hx
      rcases hx with hx | hx
      · have hs := hsort _ (List.mem_cons_self _ _)
        exact (List.pairwise_cons.1 hs).1 x hx
      · obtain ⟨t, ht, hxt⟩ := List.mem_flatten.1 hx
        have hle : e.1 ≤ x.1 := by
          cases t with
          | nil => cases hxt
          | cons a t2 =>
            have h1 : e.1 ≤ a.1 := bestIdx_min h _ (List.mem_cons_of_mem _ ht) a rfl
            have hsorted := hsort _ (List.mem_cons_of_mem _ ht)
            cases hxt with
            | head => exact h1
            | tail _ hxt2 =>
              exact le_of_lt (lt_of_le_of_lt h1 ((List.pairwise_cons.1 hsorted).1 x hxt2))
        have hne : e.1 ≠ x.1 :=
          (List.pairwise_cons.1 hcross).1 t ht e (List.mem_cons_self _ _) x hxt
        exact lt_of_le_of_ne hle hne
    | succ n =>
      have hb := bestIdx_cons_succ h
      simp only [advanceAt, List.flatten_cons, List.mem_append] at hx
      rcases hx with hx | hx
      · have hle : e.1 ≤ x.1 := by
          cases s with
          | nil => cases hx
          | cons a s2 =>
            have h1 : e.1 ≤ a.1 := bestIdx_min h _ (List.mem_cons_self _ _) a rfl
            have hsorted := hsort _ (List.mem_cons_self _ _)
            cases hx with
            | head => exact h1
            | tail _ hx2 =>
              exact le_of_lt (lt_of_le_of_lt h1 ((List.pairwise_cons.1 hsorted).1 x hx2))
        have hne : x.1 ≠ e.1 := by
          obtain ⟨tl, htl⟩ := bestIdx_get hb
          have hmem : (e :: tl) ∈ rest := List.get?_mem htl
          exact (List.pairwise_cons.1 hcross).1 _ hmem x hx e (List.mem_cons_self _ _)
        exact lt_of_le_of_ne hle (Ne.symm hne)
      · exact ih hb (fun t ht => hsort t (List.mem_cons_of_mem _ ht))
          (List.pairwise_cons.1 hcross).2 x hx

/-- The k-way merge output is strictly sorted by key whenever each stream is
strictly sorted and keys are distinct across streams. -/
theorem kmerge_sorted {α : Type} [LinearOrder α] :
    ∀ (ss : List (List (α × Nat))),
      (∀ s ∈ ss, List.Pairwise (fun a b => a.1 < b.1) s) →
      List.Pairwise (fun s t => ∀ a ∈ s, ∀ b ∈ t, a.1 ≠ b.1) ss →
      List.Pairwise (fun a b => a.1 < b.1) (kmerge ss) := by
  intro ss
  generalize hn : totalLen ss = n
  induction n using Nat.strong_induction_on generalizing ss with
  | _ n ih =>
    intro hsort hcross
    cases hb : bestIdx ss with
    | none => rw [kmerge_eq_nil hb]; exact List.Pairwise.nil
    | some q =>
      rw [kmerge_eq_cons hb]
      obtain ⟨tl, htl⟩ := bestIdx_get (i := q.1) (e := q.2) (by rw [hb])
      have hlen := advanceAt_totalLen htl
      have hsub := advanceAt_sublist ss q.1
      have hsort2 : ∀ s ∈ advanceAt ss q.1, List.Pairwise (fun a b => a.1 < b.1) s := by
        intro s2 hs2
        obtain ⟨s, hs, hsub2⟩ := forall₂_sublist_mem hsub s2 hs2
        exact List.Pairwise.sublist hsub2 (hsort s hs)
      have hcross2 : List.Pairwise (fun s t => ∀ a ∈ s, ∀ b ∈ t, a.1 ≠ b.1)
          (advanceAt ss q.1) :=
        pairwise_of_forall₂_sublist
          (fun s2 s t2 t hs ht hR a ha b hb2 => hR a (hs.subset ha) b (ht.subset hb2))
          hsub hcross
      refine List.pairwise_cons.2 ⟨?_, ih _ (by omega) _ rfl hsort2 hcross2⟩
      intro b hb2
      have hbmem : b ∈ (advanceAt ss q.1).flatten :=
        (kmerge_perm (advanceAt ss q.1)).mem_iff.1 hb2
      exact bestIdx_bound (i := q.1) (e := q.2) (by rw [hb]) hsort hcross b hbmem

/-! ### Summing k-way merge for term iteration

Modelled from the spec: on term ties across shards, frequencies are summed
into one merged entry rather than emitted twice. -/

/-- Smallest key among the heads of the streams. -/
def minHead {α : Type} [LinearOrder α] : List (List (α × Nat)) → Option α
  | [] => none
  | [] :: rest => minHead rest
  | ((t, _) :: _) :: rest =>
    match minHead rest with
    | none => some t
    | some u => some (min t u)

/-- Pop every stream head carrying key `t`, summing their frequencies. -/
def popMin {α : Type} [LinearOrder α] (t : α) :
    List (List (α × Nat)) → Nat × List (List (α × Nat))
  | [] => (0, [])
  | [] :: rest => ((popMin t rest).1, [] :: (popMin t rest).2)
  | ((u, w) :: tl) :: rest =>
    if u = t then (w + (popMin t rest).1, tl :: (popMin t rest).2)
    else ((popMin t rest).1, ((u, w) :: tl) :: (popMin t rest).2)

theorem minHead_eq_none {α : Type} [LinearOrder α] :
    ∀ {ss : List (List (α × Nat))}, minHead ss = none → ∀ s ∈ ss, s = [] := by
  intro ss
  induction ss with
  | nil => intro _ s hs; cases hs
  | cons s rest ih =>
    intro h t ht
    cases s with
    | nil =>
      simp only [minHead] at h
      cases ht with
      | head => rfl
      | tail _ ht2 => exact ih h t ht2
    | cons e s2 =>
      cases e with
      | mk u w =>
        simp only [minHead] at h
        split at h <;> cases h

theorem minHead_le {α : Type} [LinearOrder α] :
    ∀ {ss : List (List (α × Nat))} {t : α}, minHead ss = some t →
      ∀ s ∈ ss, ∀ e, s.head? = some e → t ≤ e.1 := by
  intro ss
  induction ss with
  | nil => intro t h; cases h
  | cons s rest ih =>
    intro t h u hu e he
    cases s with
    | nil =>
      simp only [minHead] at h
      cases hu with
      | head => cases he
      | tail _ hu2 => exact ih h u hu2 e he
    | cons a s2 =>
      cases a with
      | mk v w =>
        simp only [minHead] at h
        split at h
        · rename_i hrest
          cases h
          cases hu with
          | head => cases he; exact le_refl _
          | tail _ hu2 =>
            have : u = [] := minHead_eq_none hrest u hu2
            subst this; cases he
        · rename_i x hrest
          cases h
          cases hu with
          | head => cases he; exact min_le_left _ _
          | tail _ hu2 => exact le_trans (min_le_right _ _) (ih hrest u hu2 e he)

theorem minHead_attained {α : Type} [LinearOrder α] :
    ∀ {ss : List (List (α × Nat))} {t : α}, minHead ss = some t →
      ∃ s ∈ ss, ∃ w tl, s = (t, w) :: tl := by
  intro ss
  induction ss with
  | nil => intro t h; cases h
  | cons s rest ih =>
    intro t h
    cases s with
    | nil =>
      simp only [minHead] at h
      obtain ⟨s, hs, w, tl, rfl⟩ := ih h
      exact ⟨(t, w) :: tl, List.mem_cons_of_mem _ hs, w, tl, rfl⟩
    | cons a s2 =>
      cases a with
      | mk v w =>
        simp only [minHead] at h
        split at h
        · cases h
          exact ⟨_, List.mem_cons_self _ _, w, s2, rfl⟩
        · rename_i x hrest
          cases h
          rcases le_total v x with hvx | hxv
          · rw [min_eq_left hvx]
            exact ⟨(v, w) :: s2, List.mem_cons_self _ _, w, s2, rfl⟩
          · rw [min_eq_right hxv]
            obtain ⟨s, hs, w2, tl, rfl⟩ := ih hrest
            exact ⟨(x, w2) :: tl, List.mem_cons_of_mem _ hs, w2, tl, rfl⟩

theorem popMin_totalLen_le {α : Type} [LinearOrder α] (t : α) :
    ∀ (ss : List (List (α × Nat))), totalLen (popMin t ss).2 ≤ totalLen ss := by
  intro ss
  induction ss with
  | nil => exact le_refl _
  | cons s rest ih =>
    cases s with
    | nil => simpa [popMin, totalLen] using ih
    | cons a s2 =>
      cases a with
      | mk u w =>
        by_cases hu : u = t
        · simp only [popMin, if_pos hu, totalLen, List.map_cons, List.sum_cons]
          simp only [totalLen] at ih
          simp [List.length_cons]
          omega
        · simp only [popMin, if_neg hu, totalLen, List.map_cons, List.sum_cons]
          simp only [totalLen] at ih
          omega

theorem popMin_totalLen_lt {α : Type} [LinearOrder α] :
    ∀ {ss : List (List (α × Nat))} {t : α}, minHead ss = some t →
      totalLen (popMin t ss).2 < totalLen ss := by
  intro ss
  induction ss with
  | nil => intro t h; cases h
  | cons s rest ih =>
    intro t h
    cases s with
    | nil =>
      simp only [minHead] at h
      have := ih h
      simp only [popMin, totalLen, List.map_cons, List.sum_cons] at *
      omega
    | cons a s2 =>
      cases a with
      | mk u w =>
        by_cases hu : u = t
        · have hle := popMin_totalLen_le t rest
          simp only [popMin, if_pos hu, totalLen, List.map_cons, List.sum_cons] at *
          simp [List.length_cons]
          omega
        · simp only [minHead] at h
          split at h
          · cases h; exact absurd rfl hu
          · rename_i x hrest
            cases h
            have hxu : min u x = x := by
              rcases le_total u x with h1 | h1
              · rw [min_eq_left h1] at hu ⊢
                exact absurd rfl hu
              · exact min_eq_right h1
            rw [hxu] at hu ⊢
            have := ih hrest
            simp only [popMin, if_neg hu, totalLen, List.map_cons, List.sum_cons] at *
            omega

theorem popMin_sublist {α : Type} [LinearOrder α] (t : α) :
    ∀ (ss : List (List (α × Nat))),
      List.Forall₂ List.Sublist (popMin t ss).2 ss := by
  intro ss
  induction ss with
  | nil => exact List.Forall₂.nil
  | cons s rest ih =>
    cases s with
    | nil => exact List.Forall₂.cons (List.Sublist.refl _) ih
    | cons a s2 =>
      cases a with
      | mk u w =>
        by_cases hu : u = t
        · simp only [popMin, if_pos hu]
          exact List.Forall₂.cons (List.sublist_cons_self _ _) ih
        · simp only [popMin, if_neg hu]
          exact List.Forall₂.cons (List.Sublist.refl _) ih

theorem popMin_bound {α : Type} [LinearOrder α] {t : α} :
    ∀ {ss : List (List (α × Nat))},
      (∀ s ∈ ss, List.Pairwise (fun a b => a.1 < b.1) s) →
      (∀ s ∈ ss, ∀ e, s.head? = some e → t ≤ e.1) →
      ∀ x ∈ (popMin t ss).2.flatten, t < x.1 := by
  intro ss
  induction ss with
  | nil => intro _ _ x hx; cases hx
  | cons s rest ih =>
    intro hsort hhead x hx
    have ihr := ih (fun s2 hs => hsort s2 (List.mem_cons_of_mem _ hs))
      (fun s2 hs => hhead s2 (List.mem_cons_of_mem _ hs))
    cases s with
    | nil =>
      have hpop : (popMin t ([] :: rest)).2 = [] :: (popMin t rest).2 := by simp [popMin]
      rw [hpop, List.flatten_cons, List.nil_append] at hx
      exact ihr x hx
    | cons a s2 =>
      cases a with
      | mk u w =>
        have hturel : t ≤ u := hhead _ (List.mem_cons_self _ _) (u, w) rfl
        have hsorthead := hsort _ (List.mem_cons_self _ _)
        by_cases hu : u = t
        · have hpop : (popMin t (((u, w) :: s2) :: rest)).2 = s2 :: (popMin t rest).2 := by
            simp [popMin, hu]
          rw [hpop, List.flatten_cons] at hx
          rcases List.mem_append.1 hx with hx | hx
          · exact hu ▸ (List.pairwise_cons.1 hsorthead).1 x hx
          · exact ihr x hx
        · have hpop : (popMin t (((u, w) :: s2) :: rest)).2
              = ((u, w) :: s2) :: (popMin t rest).2 := by
            simp [popMin, hu]
          rw [hpop, List.flatten_cons] at hx
          rcases List.mem_append.1 hx with hx | hx
          · have htu : t < u := lt_of_le_of_ne hturel (fun h => hu h.symm)
            rcases List.mem_cons.1 hx with rfl | hx2
            · exact htu
            · exact lt_trans htu ((List.pairwise_cons.1 hsorthead).1 x hx2)
          · exact ihr x hx

/-- Summed within-document or collection frequency that a stream reports for
one key. -/
def freqOf {α : Type} [LinearOrder α] (s : List (α × Nat)) (q : α) : Nat :=
  ((s.filter (fun e => decide (e.1 = q))).map (fun e => e.2)).sum

theorem freqOf_nil {α : Type} [LinearOrder α] (q : α) : freqOf [] q = 0 := rfl

theorem freqOf_cons {α : Type} [LinearOrder α] (e : α × Nat) (s : List (α × Nat)) (q : α) :
    freqOf (e :: s) q = (if e.1 = q then e.2 else 0) + freqOf s q := by
  by_cases h : e.1 = q
  · simp [freqOf, List.filter_cons, h]
  · simp [freqOf, List.filter_cons, h]

theorem popMin_freq {α : Type} [LinearOrder α] (t q : α) :
    ∀ (ss : List (List (α × Nat))),
      (if t = q then (popMin t ss).1 else 0)
        + ((popMin t ss).2.map (fun s => freqOf s q)).sum
      = (ss.map (fun s => freqOf s q)).sum := by
  intro ss
  induction ss with
  | nil => simp [popMin]
  | cons s rest ih =>
    cases s with
    | nil =>
      have h1 : (popMin t ([] :: rest)).1 = (popMin t rest).1 := by simp [popMin]
      have h2 : (popMin t ([] :: rest)).2 = [] :: (popMin t rest).2 := by simp [popMin]
      rw [h1, h2, List.map_cons, List.sum_cons, List.map_cons, List.sum_cons]
      simp only [freqOf_nil]
      omega
    | cons a s2 =>
      cases a with
      | mk u w =>
        by_cases hu : u = t
        · subst hu
          have h1 : (popMin u (((u, w) :: s2) :: rest)).1 = w + (popMin u rest).1 := by
            simp [popMin]
          have h2 : (popMin u (((u, w) :: s2) :: rest)).2 = s2 :: (popMin u rest).2 := by
            simp [popMin]
          rw [h1, h2, List.map_cons, List.sum_cons, List.map_cons, List.sum_cons, freqOf_cons]
          rcases eq_or_ne u q with rfl | htq
          · simp only [eq_self_iff_true, if_true] at ih ⊢
            omega
          · simp only [if_neg htq] at ih ⊢
            omega
        · have h1 : (popMin t (((u, w) :: s2) :: rest)).1 = (popMin t rest).1 := by
            simp [popMin, hu]
          have h2 : (popMin t (((u, w) :: s2) :: rest)).2
              = ((u, w) :: s2) :: (popMin t rest).2 := by
            simp [popMin, hu]
          rw [h1, h2, List.map_cons, List.sum_cons, List.map_cons, List.sum_cons]
          omega

/-- Modelled from the spec: the k-way merge used for term iteration.  It
repeatedly takes the lexicographically smallest head key; all shards whose
next term equals it are advanced together and their frequencies summed into
one merged entry. -/
def kmergeSum {α : Type} [LinearOrder α] (ss : List (List (α × Nat))) : List (α × Nat) :=
  match h : minHead ss with
  | none => []
  | some t => (t, (popMin t ss).1) :: kmergeSum (popMin t ss).2
termination_by totalLen ss
decreasing_by exact popMin_totalLen_lt h

theorem kmergeSum_eq_nil {α : Type} [LinearOrder α] {ss : List (List (α × Nat))}
    (h : minHead ss = none) : kmergeSum ss = [] := by
  rw [kmergeSum.eq_def]
  split
  · rfl
  · rename_i t heq
    rw [h] at heq
    cases heq

theorem kmergeSum_eq_cons {α : Type} [LinearOrder α] {ss : List (List (α × Nat))}
    {t : α} (h : minHead ss = some t) :
    kmergeSum ss = (t, (popMin t ss).1) :: kmergeSum (popMin t ss).2 := by
  rw [kmergeSum.eq_def]
  split
  · rename_i heq
    rw [h] at heq
    cases heq
  · rename_i t2 heq
    rw [h] at heq
    cases heq
    rfl

theorem flatten_subset_of_forall₂ {β : Type} {ss2 ss : List (List β)}
    (h : List.Forall₂ List.Sublist ss2 ss) :
    ∀ x ∈ ss2.flatten, x ∈ ss.flatten := by
  intro x hx
  obtain ⟨s2, hs2, hxs2⟩ := List.mem_flatten.1 hx
  obtain ⟨s, hs, hsub⟩ := forall₂_sublist_mem h s2 hs2
  exact List.mem_flatten.2 ⟨s, hs, hsub.subset hxs2⟩

/-- Every key the summing merge emits is a key of some shard entry. -/
theorem kmergeSum_keys_mem {α : Type} [LinearOrder α] :
    ∀ (ss : List (List (α × Nat))), ∀ e ∈ kmergeSum ss, ∃ x ∈ ss.flatten, x.1 = e.1 := by
  intro ss
  generalize hn : totalLen ss = n
  induction n using Nat.strong_induction_on generalizing ss with
  | _ n ih =>
    intro e he
    cases hb : minHead ss with
    | none => rw [kmergeSum_eq_nil hb] at he; cases he
    | some t =>
      rw [kmergeSum_eq_cons hb] at he
      rcases List.mem_cons.1 he with rfl | he2
      · obtain ⟨s, hs, w, tl, rfl⟩ := minHead_attained hb
        exact ⟨(t, w), List.mem_flatten.2 ⟨_, hs, List.mem_cons_self _ _⟩, rfl⟩
      · have hlt := popMin_totalLen_lt hb
        obtain ⟨x, hx, hxe⟩ := ih (totalLen (popMin t ss).2) (by omega) _ rfl e he2
        exact ⟨x, flatten_subset_of_forall₂ (popMin_sublist t ss) x hx, hxe⟩

/-- The summing merge emits terms in strictly increasing key order: in
particular each term is emitted at most once. -/
theorem kmergeSum_sorted {α : Type} [LinearOrder α] :
    ∀ (ss : List (List (α × Nat))),
      (∀ s ∈ ss, List.Pairwise (fun a b => a.1 < b.1) s) →
      List.Pairwise (fun a b => a.1 < b.1) (kmergeSum ss) := by
  intro ss
  generalize hn : totalLen ss = n
  induction n using Nat.strong_induction_on generalizing ss with
  | _ n ih =>
    intro hsort
    cases hb : minHead ss with
    | none => rw [kmergeSum_eq_nil hb]; exact List.Pairwise.nil
    | some t =>
      rw [kmergeSum_eq_cons hb]
      have hlt := popMin_totalLen_lt hb
      have hsort2 : ∀ s ∈ (popMin t ss).2, List.Pairwise (fun a b => a.1 < b.1) s := by
        intro s2 hs2
        obtain ⟨s, hs, hsub⟩ := forall₂_sublist_mem (popMin_sublist t ss) s2 hs2
        exact List.Pairwise.sublist hsub (hsort s hs)
      refine List.pairwise_cons.2 ⟨?_, ih _ (by omega) _ rfl hsort2⟩
      intro b hbmem
      obtain ⟨x, hx, hxb⟩ := kmergeSum_keys_mem _ b hbmem
      have := popMin_bound hsort (minHead_le hb) x hx
      simpa [hxb] using this

/-- The summing merge preserves per-term frequency totals: each merged entry
carries the sum of the per-shard frequencies for its term. -/
theorem kmergeSum_freq {α : Type} [LinearOrder α] :
    ∀ (ss : List (List (α × Nat))) (q : α),
      freqOf (kmergeSum ss) q = (ss.map (fun s => freqOf s q)).sum := by
  intro ss
  generalize hn : totalLen ss = n
  induction n using Nat.strong_induction_on generalizing ss with
  | _ n ih =>
    intro q
    cases hb : minHead ss with
    | none =>
      rw [kmergeSum_eq_nil hb]
      have hall := minHead_eq_none hb
      rw [freqOf_nil]
      symm
      refine List.sum_eq_zero ?_
      intro x hx
      obtain ⟨s, hs, rfl⟩ := List.mem_map.1 hx
      rw [hall s hs, freqOf_nil]
    | some t =>
      rw [kmergeSum_eq_cons hb, freqOf_cons]
      have hlt := popMin_totalLen_lt hb
      have ihq := ih (totalLen (popMin t ss).2) (by omega) _ rfl q
      have hpop := popMin_freq t q ss
      rw [ihq]
      dsimp only
      omega

/-! ### Docid interleaving across shards

Modelled from the spec: for N shards, global id g maps to shard index
(g-1) mod N and local id (g-1) / N + 1; the inverse sends shard s, local l
to (l-1)*N + s + 1. -/

/-- Global docid of the local document `l` (1-based) held by shard `s`. -/
def toGlobal (N s l : Nat) : Nat := (l - 1) * N + s + 1

/-- Index of the shard holding global docid `g`. -/
def shardOf (N g : Nat) : Nat := (g - 1) % N

/-- Local docid (1-based) of global docid `g` inside its shard. -/
def localOf (N g : Nat) : Nat := (g - 1) / N + 1

theorem shardOf_toGlobal (N s l : Nat) (hs : s < N) (hl : 1 ≤ l) :
    shardOf N (toGlobal N s l) = s := by
  unfold shardOf toGlobal
  have h : (l - 1) * N + s + 1 - 1 = s + (l - 1) * N := by omega
  rw [h, Nat.add_mul_mod_self_right, Nat.mod_eq_of_lt hs]

theorem localOf_toGlobal (N s l : Nat) (hs : s < N) (hl : 1 ≤ l) :
    localOf N (toGlobal N s l) = l := by
  unfold localOf toGlobal
  have h : (l - 1) * N + s + 1 - 1 = s + (l - 1) * N := by omega
  rw [h, Nat.add_mul_div_right _ _ (by omega : 0 < N), Nat.div_eq_of_lt hs]
  omega

theorem toGlobal_shardOf_localOf (N g : Nat) (hN : 0 < N) (hg : 1 ≤ g) :
    toGlobal N (shardOf N g) (localOf N g) = g := by
  unfold toGlobal shardOf localOf
  rw [Nat.add_sub_cancel, Nat.mul_comm, Nat.div_add_mod]
  omega

theorem toGlobal_strictMono (N s : Nat) {l1 l2 : Nat} (hN : 0 < N)
    (h1 : 1 ≤ l1) (h12 : l1 < l2) : toGlobal N s l1 < toGlobal N s l2 := by
  unfold toGlobal
  have : (l1 - 1) * N < (l2 - 1) * N := by
    apply Nat.mul_lt_mul_of_lt_of_le (by omega) (le_refl N) hN
  omega

/-- Global docids of distinct shards never collide. -/
theorem toGlobal_ne (N s1 s2 l1 l2 : Nat) (hs1 : s1 < N) (hs2 : s2 < N)
    (hl1 : 1 ≤ l1) (hl2 : 1 ≤ l2) (hne : s1 ≠ s2) :
    toGlobal N s1 l1 ≠ toGlobal N s2 l2 := by
  intro h
  apply hne
  rw [← shardOf_toGlobal N s1 l1 hs1 hl1, ← shardOf_toGlobal N s2 l2 hs2 hl2, h]

/-! ### Indexed shard registry -/

/-- Attach 0-based positions to a list, starting at `n`. -/
def withIndex {β : Type} : Nat → List β → List (Nat × β)
  | _, [] => []
  | n, a :: as => (n, a) :: withIndex (n + 1) as

theorem withIndex_mem_bounds {β : Type} :
    ∀ {l : List β} {n : Nat} {p : Nat × β}, p ∈ withIndex n l →
      n ≤ p.1 ∧ p.1 < n + l.length := by
  intro l
  induction l with
  | nil => intro n p hp; cases hp
  | cons a as ih =>
    intro n p hp
    cases hp with
    | head => simp
    | tail _ hp2 =>
      have := ih hp2
      simp only [List.length_cons]
      omega

theorem withIndex_mem_src {β : Type} :
    ∀ {l : List β} {n : Nat} {p : Nat × β}, p ∈ withIndex n l → p.2 ∈ l := by
  intro l
  induction l with
  | nil => intro n p hp; cases hp
  | cons a as ih =>
    intro n p hp
    cases hp with
    | head => exact List.mem_cons_self _ _
    | tail _ hp2 => exact List.mem_cons_of_mem _ (ih hp2)

theorem withIndex_pairwise {β : Type} :
    ∀ (l : List β) (n : Nat),
      List.Pairwise (fun p q => p.1 < q.1) (withIndex n l) := by
  intro l
  induction l with
  | nil => intro n; exact List.Pairwise.nil
  | cons a as ih =>
    intro n
    refine List.pairwise_cons.2 ⟨?_, ih (n + 1)⟩
    intro q hq
    have := withIndex_mem_bounds hq
    simp only
    omega

theorem withIndex_complete {β : Type} :
    ∀ {l : List β} {k : Nat} {a : β} (n : Nat), l.get? k = some a →
      (n + k, a) ∈ withIndex n l := by
  intro l
  induction l with
  | nil => intro k a n h; cases h
  | cons b bs ih =>
    intro k a n h
    cases k with
    | zero =>
      simp only [List.get?] at h
      cases h
      exact List.mem_cons_self _ _
    | succ k2 =>
      simp only [List.get?] at h
      have := ih (n + 1) h
      have heq : n + 1 + k2 = n + (k2 + 1) := by omega
      rw [heq] at this
      exact List.mem_cons_of_mem _ this

/-! ### Read path: shards and the logical database

Modelled from the spec (the repository ships only the interface header):
a shard exposes its document list, per-term postings, and term list via the
shard capability interface; the logical database is an ordered sequence of
shards. -/

/-- A term name: the byte sequence of the C++ std::string, compared
lexicographically.  The empty term is the empty sequence. -/
abbrev Term := List Nat

/-- One physical index partition, as seen through the capability interface.
`docids` are the local ids of existing documents, `postings t` the local
(docid, wdf) stream for term `t`, `terms` the shard's sorted term list with
per-term frequency. -/
structure Shard where
  docids : List Nat
  postings : Term → List (Nat × Nat)
  terms : List (Term × Nat)
  doccount : Nat
  lastLocal : Nat

/-- A logical database: an ordered sequence of shards. -/
structure Database where
  shards : List Shard

/-- Modelled from the spec: doc_count is the sum of shard doc counts. -/
def get_doccount (db : Database) : Nat := (db.shards.map Shard.doccount).sum

/-- Mapped global id of a shard's highest used local docid, 0 for a shard
that never allocated a document. -/
def shardLast (N : Nat) (p : Nat × Shard) : Nat :=
  if p.2.lastLocal = 0 then 0 else toGlobal N p.1 p.2.lastLocal

/-- Modelled from the spec: last_docid is the maximum over shards of
(local_last_docid - 1) * N + shard_index + 1, and 0 if empty. -/
def get_lastdocid (db : Database) : Nat :=
  ((withIndex 0 db.shards).map (shardLast db.shards.length)).foldr max 0

/-- The globally translated posting stream one shard contributes for a term.
Modelled from `Database::postlist_begin`: for the empty term the stream
lists every document with a WDF of 1. -/
def shardStream (N : Nat) (p : Nat × Shard) (t : Term) : List (Nat × Nat) :=
  if t = [] then p.2.docids.map (fun l => (toGlobal N p.1 l, 1))
  else (p.2.postings t).map (fun e => (toGlobal N p.1 e.1, e.2))

/-- Modelled from the spec: the merged postings iterator is the k-way merge
of the shard streams translated to global docids. -/
def postlist (db : Database) (t : Term) : List (Nat × Nat) :=
  kmerge ((withIndex 0 db.shards).map (fun p => shardStream db.shards.length p t))

/-- Modelled from the spec: merged term iteration is the summing k-way merge
of the shard term lists. -/
def allterms (db : Database) : List (Term × Nat) :=
  kmergeSum (db.shards.map Shard.terms)

/-! ### Helper facts about foldr max -/

theorem le_foldr_max : ∀ (l : List Nat), ∀ x ∈ l, x ≤ l.foldr max 0 := by
  intro l
  induction l with
  | nil => intro x hx; cases hx
  | cons a as ih =>
    intro x hx
    rcases List.mem_cons.1 hx with rfl | hx2
    · exact le_max_left _ _
    · exact le_trans (ih x hx2) (le_max_right _ _)

theorem foldr_max_cases : ∀ (l : List Nat), l.foldr max 0 = 0 ∨ l.foldr max 0 ∈ l := by
  intro l
  induction l with
  | nil => exact Or.inl rfl
  | cons a as ih =>
    simp only [List.foldr_cons]
    rcases max_choice a (as.foldr max 0) with h | h
    · rw [h]
      exact Or.inr (List.mem_cons_self _ _)
    · rw [h]
      rcases ih with h2 | h2
      · exact Or.inl h2
      · exact Or.inr (List.mem_cons_of_mem _ h2)

theorem foldr_max_all_zero : ∀ {l : List Nat}, (∀ x ∈ l, x = 0) → l.foldr max 0 = 0 := by
  intro l
  induction l with
  | nil => intro _; rfl
  | cons a as ih =>
    intro h
    simp only [List.foldr_cons, h a (List.mem_cons_self _ _),
      ih (fun x hx => h x (List.mem_cons_of_mem _ hx))]
    rfl

/-! ### Structure of one shard's translated stream -/

theorem shardStream_sorted {N : Nat} {p : Nat × Shard} {t : Term} (hN : 0 < N)
    (hpost : List.Pairwise (fun a b => a.1 < b.1) (p.2.postings t))
    (hpostpos : ∀ e ∈ p.2.postings t, 1 ≤ e.1)
    (hdoc : List.Pairwise (fun a b => a < b) p.2.docids)
    (hdocpos : ∀ l ∈ p.2.docids, 1 ≤ l) :
    List.Pairwise (fun a b => a.1 < b.1) (shardStream N p t) := by
  unfold shardStream
  split
  · refine List.Pairwise.map _ ?_ (List.Pairwise.and_mem.1 hdoc)
    intro a b hab
    exact toGlobal_strictMono N p.1 hN (hdocpos a hab.1) hab.2.2
  · refine List.Pairwise.map _ ?_ (List.Pairwise.and_mem.1 hpost)
    intro a b hab
    exact toGlobal_strictMono N p.1 hN (hpostpos a hab.1) hab.2.2

theorem shardStream_mem_key {N : Nat} {p : Nat × Shard} {t : Term} {a : Nat × Nat}
    (hpostpos : ∀ e ∈ p.2.postings t, 1 ≤ e.1)
    (hdocpos : ∀ l ∈ p.2.docids, 1 ≤ l)
    (ha : a ∈ shardStream N p t) : ∃ l, 1 ≤ l ∧ a.1 = toGlobal N p.1 l := by
  unfold shardStream at ha
  split at ha
  · obtain ⟨l, hl, rfl⟩ := List.mem_map.1 ha
    exact ⟨l, hdocpos l hl, rfl⟩
  · obtain ⟨e, he, rfl⟩ := List.mem_map.1 ha
    exact ⟨e.1, hpostpos e he, rfl⟩

/-! ### Claim theorems for the read path -/

/-- C1: for every term and every multi-shard database the merged postings
iterator yields its (global docid, wdf) entries in strictly increasing
global docid order — it is the k-way merge, so it emits exactly the shards'
translated entries — and merged term iteration emits each term at most once
(strictly increasing term order), with the per-shard frequencies summed into
the single merged entry. -/
theorem c1_kway_merge (db : Database) (t : Term)
    (hpost : ∀ sh ∈ db.shards,
      List.Pairwise (fun a b => a.1 < b.1) (sh.postings t) ∧ ∀ e ∈ sh.postings t, 1 ≤ e.1)
    (hdocs : ∀ sh ∈ db.shards,
      List.Pairwise (fun a b => a < b) sh.docids ∧ ∀ l ∈ sh.docids, 1 ≤ l)
    (hterms : ∀ sh ∈ db.shards, List.Pairwise (fun a b => a.1 < b.1) sh.terms) :
    List.Pairwise (fun a b => a.1 < b.1) (postlist db t) ∧
    List.Perm (postlist db t)
      ((withIndex 0 db.shards).map (fun p => shardStream db.shards.length p t)).flatten ∧
    List.Pairwise (fun a b => a.1 < b.1) (allterms db) ∧
    (∀ q, freqOf (allterms db) q = (db.shards.map (fun sh => freqOf sh.terms q)).sum) := by
  refine ⟨?_, kmerge_perm _, ?_, ?_⟩
  · apply kmerge_sorted
    · intro s hs
      obtain ⟨p, hp, rfl⟩ := List.mem_map.1 hs
      have hmem := withIndex_mem_src hp
      have hb := withIndex_mem_bounds hp
      exact shardStream_sorted (by omega) (hpost _ hmem).1 (hpost _ hmem).2
        (hdocs _ hmem).1 (hdocs _ hmem).2
    · rw [List.pairwise_map]
      refine List.Pairwise.imp_of_mem ?_ (withIndex_pairwise db.shards 0)
      intro p q hp hq hlt a ha b hb
      have hpmem := withIndex_mem_src hp
      have hqmem := withIndex_mem_src hq
      have hpb := withIndex_mem_bounds hp
      have hqb := withIndex_mem_bounds hq
      obtain ⟨la, hla, hA⟩ := shardStream_mem_key (hpost _ hpmem).2 (hdocs _ hpmem).2 ha
      obtain ⟨lb, hlb, hB⟩ := shardStream_mem_key (hpost _ hqmem).2 (hdocs _ hqmem).2 hb
      rw [hA, hB]
      exact toGlobal_ne _ _ _ _ _ (by omega) (by omega) hla hlb (by omega)
  · apply kmergeSum_sorted
    intro s hs
    obtain ⟨sh, hsh, rfl⟩ := List.mem_map.1 hs
    exact hterms sh hsh
  · intro q
    rw [allterms, kmergeSum_freq, List.map_map]
    rfl

/-- C2: doc_count is the sum of the shard doc counts; last_docid is the
maximum over shards of the mapped last local docid (0 when there are no
shards or no documents); and the docid interleaving g = (l-1)*N + s + 1,
s = (g-1) mod N, l = (g-1) div N + 1 is an exact bijection. -/
theorem c2_doccount_lastdocid (db : Database) :
    get_doccount db = (db.shards.map Shard.doccount).sum ∧
    (db.shards = [] → get_lastdocid db = 0) ∧
    ((∀ sh ∈ db.shards, sh.lastLocal = 0) → get_lastdocid db = 0) ∧
    (∀ p ∈ withIndex 0 db.shards, shardLast db.shards.length p ≤ get_lastdocid db) ∧
    (get_lastdocid db = 0 ∨
      ∃ p ∈ withIndex 0 db.shards, get_lastdocid db = shardLast db.shards.length p) ∧
    (∀ s l, s < db.shards.length → 1 ≤ l →
      shardOf db.shards.length (toGlobal db.shards.length s l) = s ∧
      localOf db.shards.length (toGlobal db.shards.length s l) = l) ∧
    (∀ g, 0 < db.shards.length → 1 ≤ g →
      toGlobal db.shards.length (shardOf db.shards.length g) (localOf db.shards.length g)
        = g) := by
  refine ⟨rfl, ?_, ?_, ?_, ?_, ?_, ?_⟩
  · intro h
    rw [get_lastdocid, h]
    rfl
  · intro h
    apply foldr_max_all_zero
    intro x hx
    obtain ⟨p, hp, rfl⟩ := List.mem_map.1 hx
    rw [shardLast, if_pos (h _ (withIndex_mem_src hp))]
  · intro p hp
    exact le_foldr_max _ _ (List.mem_map.2 ⟨p, hp, rfl⟩)
  · rcases foldr_max_cases
        ((withIndex 0 db.shards).map (shardLast db.shards.length)) with h | h
    · exact Or.inl h
    · obtain ⟨p, hp, hval⟩ := List.mem_map.1 h
      exact Or.inr ⟨p, hp, hval.symm⟩
  · intro s l hs hl
    exact ⟨shardOf_toGlobal _ _ _ hs hl, localOf_toGlobal _ _ _ hs hl⟩
  · intro g hN hg
    exact toGlobal_shardOf_localOf _ _ hN hg

/-- C9: the merged postings iterator for the empty term name lists exactly
the documents of the database — every entry carries a WDF of 1, every
document of every shard contributes its entry, and every entry comes from a
document of some shard. -/
theorem c9_empty_term_postlist (db : Database) :
    (∀ e ∈ postlist db [], e.2 = 1) ∧
    (∀ k sh, db.shards.get? k = some sh → ∀ l ∈ sh.docids,
      (toGlobal db.shards.length k l, 1) ∈ postlist db []) ∧
    (∀ e ∈ postlist db [], ∃ p ∈ withIndex 0 db.shards, ∃ l ∈ p.2.docids,
      e = (toGlobal db.shards.length p.1 l, 1)) := by
  have hperm := kmerge_perm
    ((withIndex 0 db.shards).map (fun p => shardStream db.shards.length p []))
  refine ⟨?_, ?_, ?_⟩
  · intro e he
    have := hperm.mem_iff.1 he
    obtain ⟨s, hs, hes⟩ := List.mem_flatten.1 this
    obtain ⟨p, hp, rfl⟩ := List.mem_map.1 hs
    unfold shardStream at hes
    rw [if_pos rfl] at hes
    obtain ⟨l, hl, rfl⟩ := List.mem_map.1 hes
    rfl
  · intro k sh hk l hl
    apply hperm.mem_iff.2
    apply List.mem_flatten.2
    refine ⟨shardStream db.shards.length (k, sh) [], ?_, ?_⟩
    · exact List.mem_map.2 ⟨(k, sh), by simpa using withIndex_complete 0 hk, rfl⟩
    · unfold shardStream
      rw [if_pos rfl]
      exact List.mem_map.2 ⟨l, hl, rfl⟩
  · intro e he
    have := hperm.mem_iff.1 he
    obtain ⟨s, hs, hes⟩ := List.mem_flatten.1 this
    obtain ⟨p, hp, rfl⟩ := List.mem_map.1 hs
    unfold shardStream at hes
    rw [if_pos rfl] at hes
    obtain ⟨l, hl, rfl⟩ := List.mem_map.1 hes
    exact ⟨p, hp, l, hl, rfl⟩

/-! ### Concrete sample database used by the witnesses -/

/-- First sample shard: three documents, term 99 with wdf 2 and 1. -/
def shardA : Shard where
  docids := [1, 2, 3]
  postings := fun t => if t = [99] then [(1, 2), (3, 1)] else []
  terms := [([99], 3), ([100], 1)]
  doccount := 3
  lastLocal := 3

/-- Second sample shard: two documents, term 99 in both. -/
def shardB : Shard where
  docids := [1, 2]
  postings := fun t => if t = [99] then [(1, 1), (2, 4)] else []
  terms := [([97], 2), ([99], 5)]
  doccount := 2
  lastLocal := 2

/-- A concrete two-shard logical database. -/
def sampleDB : Database := ⟨[shardA, shardB]⟩

theorem c1_kway_merge_witness :
    (∀ sh ∈ sampleDB.shards, List.Pairwise (fun a b => a.1 < b.1) (sh.postings [99])
      ∧ ∀ e ∈ sh.postings [99], 1 ≤ e.1) ∧
    List.Pairwise (fun a b => a.1 < b.1) (postlist sampleDB [99]) ∧
    List.Pairwise (fun a b => a.1 < b.1) (allterms sampleDB) := by
  have h1 : ∀ sh ∈ sampleDB.shards,
      List.Pairwise (fun a b => a.1 < b.1) (sh.postings [99])
        ∧ ∀ e ∈ sh.postings [99], 1 ≤ e.1 := by decide
  have h2 : ∀ sh ∈ sampleDB.shards,
      List.Pairwise (fun a b => a < b) sh.docids ∧ ∀ l ∈ sh.docids, 1 ≤ l := by decide
  have h3 : ∀ sh ∈ sampleDB.shards, List.Pairwise (fun a b => a.1 < b.1) sh.terms := by
    decide
  have h := c1_kway_merge sampleDB [99] h1 h2 h3
  exact ⟨h1, h.1, h.2.2.1⟩

theorem c2_doccount_lastdocid_witness :
    get_doccount sampleDB = (sampleDB.shards.map Shard.doccount).sum ∧
    0 < sampleDB.shards.length ∧ (1 : Nat) ≤ 5 ∧
    toGlobal sampleDB.shards.length (shardOf sampleDB.shards.length 5)
      (localOf sampleDB.shards.length 5) = 5 := by
  have h := c2_doccount_lastdocid sampleDB
  exact ⟨h.1, by decide, by decide, h.2.2.2.2.2.2 5 (by decide) (by decide)⟩

/-! ### Write path: mutation buffer, docid allocator, transactions

Modelled from the spec: the writable database buffers mutation records
(Add, Delete, DeleteByTerm, Replace, ReplaceByTerm) against a single
writable shard, applies them on flush, allocates docids from a monotonic
counter, and wraps flushing with the transaction state machine. -/

/-- The terms indexing one document. -/
abbrev DocTerms := List Term

/-- The document store of the writable shard: docid to document. -/
abbrev Store := List (Nat × DocTerms)

/-- Look a document up by docid. -/
def storeGet : Store → Nat → Option DocTerms
  | [], _ => none
  | e :: rest, did => if e.1 = did then some e.2 else storeGet rest did

/-- Replace the document stored under `did`, or add it if absent. -/
def storeSet : Store → Nat → DocTerms → Store
  | [], did, d => [(did, d)]
  | e :: rest, did, d =>
    if e.1 = did then (did, d) :: rest else e :: storeSet rest did d

/-- Remove the document stored under `did`, if any. -/
def storeDel (s : Store) (did : Nat) : Store :=
  s.filter (fun e => decide (e.1 ≠ did))

/-- The docids of the documents indexed by term `t`. -/
def indexedBy (s : Store) (t : Term) : List Nat :=
  (s.filter (fun e => decide (t ∈ e.2))).map (fun e => e.1)

/-- Minimum of a list of naturals, none when empty. -/
def listMin : List Nat → Option Nat
  | [] => none
  | a :: as =>
    match listMin as with
    | none => some a
    | some b => some (min a b)

/-- The lowest docid among the documents indexed by `t`, none if no document
is indexed by `t`. -/
def minMatch (s : Store) (t : Term) : Option Nat := listMin (indexedBy s t)

/-- A buffered mutation record.  `add` carries the docid allocated when the
call returned; `replByTerm` carries the fallback docid allocated for the
none-matched case. -/
inductive Mutation : Type
  | add (did : Nat) (d : DocTerms)
  | del (did : Nat)
  | delByTerm (t : Term)
  | repl (did : Nat) (d : DocTerms)
  | replByTerm (t : Term) (d : DocTerms) (fallback : Nat)

/-- Apply one mutation record to the store.  Modelled from the spec: a
ReplaceByTerm applied at flush time replaces the document with the lowest
docid indexed by the term, or adds under the fallback id if none match. -/
def applyMut (s : Store) : Mutation → Store
  | .add did d => storeSet s did d
  | .del did => storeDel s did
  | .delByTerm t => s.filter (fun e => decide (t ∉ e.2))
  | .repl did d => storeSet s did d
  | .replByTerm t d fb =>
    match minMatch s t with
    | some did => storeSet s did d
    | none => storeSet s fb d

/-- Apply a batch of mutation records in order. -/
def applyMuts (s : Store) (ms : List Mutation) : Store := ms.foldl applyMut s

/-- Transaction state: Idle is initial and terminal. -/
inductive TxnState : Type
  | idle
  | activeFlushed
  | activeUnflushed
deriving DecidableEq

/-- Outcome oracle for an operation that writes to durable storage: on
failure, `mask` selects which records of the batch were applied in full. -/
inductive FlushOutcome : Type
  | ok
  | fail (mask : List Bool)

/-- Errors of the write path relevant to the claims. -/
inductive Err : Type
  | invalidOperation
  | databaseError
deriving DecidableEq

/-- State of one writable database. -/
structure WDB where
  committed : Store
  buffer : List Mutation
  lastAlloc : Nat
  txn : TxnState

/-- The logical view of the database: the committed store with every
buffered record applied, which is what a flush would make durable. -/
def view (st : WDB) : Store := applyMuts st.committed st.buffer

/-- Keep the records selected by the mask (one flag per record). -/
def maskSel : List Bool → List Mutation → List Mutation
  | _, [] => []
  | [], _ => []
  | b :: bs, m :: ms => if b then m :: maskSel bs ms else maskSel bs ms

/-- The callable operations of the writable database. -/
inductive Op : Type
  | addDoc (d : DocTerms)
  | deleteId (did : Nat)
  | deleteTerm (t : Term)
  | replaceId (did : Nat) (d : DocTerms)
  | replaceTerm (t : Term) (d : DocTerms)
  | flushOp (o : FlushOutcome)
  | beginTxn (flushed : Bool)
  | commitTxn (o : FlushOutcome)
  | cancelTxn

/-- Result of one API call: the successor state, the returned docid if the
call returns one, and the raised error if any. -/
structure StepResult where
  st : WDB
  ret : Option Nat
  err : Option Err

/-- Modelled from the spec: one API call of the writable database.
  * add_document allocates the next docid and buffers an Add;
  * delete/replace buffer their records, replace_document(did, d) advancing
    the allocator to did when did exceeds it;
  * replace_document(term, d) resolves against the logical view: the lowest
    matching docid is returned, otherwise a fresh docid is allocated exactly
    as add_document does;
  * flush applies the whole buffer on success and an arbitrary record subset
    on failure, and is an InvalidOperationError inside a transaction;
  * the transaction calls implement the Idle/ActiveFlushed/ActiveUnflushed
    state machine, commit and cancel always returning to Idle, an unflushed
    cancel discarding the whole buffer. -/
def step (st : WDB) : Op → StepResult
  | .addDoc d =>
    ⟨{ st with
        buffer := st.buffer ++ [.add (st.lastAlloc + 1) d]
        lastAlloc := st.lastAlloc + 1 }, some (st.lastAlloc + 1), none⟩
  | .deleteId did => ⟨{ st with buffer := st.buffer ++ [.del did] }, none, none⟩
  | .deleteTerm t => ⟨{ st with buffer := st.buffer ++ [.delByTerm t] }, none, none⟩
  | .replaceId did d =>
    ⟨{ st with
        buffer := st.buffer ++ [.repl did d]
        lastAlloc := max st.lastAlloc did }, none, none⟩
  | .replaceTerm t d =>
    match minMatch (view st) t with
    | some did =>
      ⟨{ st with buffer := st.buffer ++ [.replByTerm t d did] }, some did, none⟩
    | none =>
      ⟨{ st with
          buffer := st.buffer ++ [.replByTerm t d (st.lastAlloc + 1)]
          lastAlloc := st.lastAlloc + 1 }, some (st.lastAlloc + 1), none⟩
  | .flushOp o =>
    if st.txn = .idle then
      match o with
      | .ok =>
        ⟨{ st with
            committed := view st
            buffer := [] }, none, none⟩
      | .fail mask =>
        ⟨{ st with committed := applyMuts st.committed (maskSel mask st.buffer) },
          none, some .databaseError⟩
    else ⟨st, none, some .invalidOperation⟩
  | .beginTxn flushed =>
    if st.txn = .idle then
      if flushed then
        ⟨{ st with
            committed := view st
            buffer := []
            txn := .activeFlushed }, none, none⟩
      else ⟨{ st with txn := .activeUnflushed }, none, none⟩
    else ⟨st, none, some .invalidOperation⟩
  | .commitTxn o =>
    match st.txn with
    | .idle => ⟨st, none, some .invalidOperation⟩
    | .activeUnflushed => ⟨{ st with txn := .idle }, none, none⟩
    | .activeFlushed =>
      match o with
      | .ok =>
        ⟨{ st with
            committed := view st
            buffer := []
            txn := .idle }, none, none⟩
      | .fail _ => ⟨{ st with buffer := [], txn := .idle }, none, some .databaseError⟩
  | .cancelTxn =>
    if st.txn = .idle then ⟨st, none, some .invalidOperation⟩
    else ⟨{ st with buffer := [], txn := .idle }, none, none⟩

/-- Run a sequence of calls, following the successor states. -/
def runOps (st : WDB) : List Op → WDB
  | [] => st
  | op :: ops => runOps (step st op).st ops

/-! ### Store lemmas -/

theorem storeGet_set_self : ∀ (s : Store) (did : Nat) (d : DocTerms),
    storeGet (storeSet s did d) did = some d := by
  intro s
  induction s with
  | nil => intro did d; simp [storeGet, storeSet]
  | cons e rest ih =>
    intro did d
    by_cases h : e.1 = did
    · simp [storeSet, h, storeGet]
    · simp [storeSet, h, storeGet, ih]

theorem storeGet_set_other : ∀ (s : Store) (did j : Nat) (d : DocTerms), j ≠ did →
    storeGet (storeSet s did d) j = storeGet s j := by
  intro s
  induction s with
  | nil =>
    intro did j d hj
    simp [storeGet, storeSet, Ne.symm hj]
  | cons e rest ih =>
    intro did j d hj
    by_cases h : e.1 = did
    · have h2 : e.1 ≠ j := by rw [h]; exact Ne.symm hj
      simp [storeSet, h, storeGet, Ne.symm hj, h2]
    · by_cases h2 : e.1 = j
      · simp only [storeSet, if_neg h, storeGet, if_pos h2]
      · simp only [storeSet, if_neg h, storeGet, if_neg h2]
        exact ih did j d hj

theorem storeGet_none_of_big : ∀ {s : Store} {n m : Nat},
    (∀ e ∈ s, e.1 ≤ n) → n < m → storeGet s m = none := by
  intro s
  induction s with
  | nil => intro n m _ _; rfl
  | cons e rest ih =>
    intro n m hb hm
    have he : e.1 ≠ m := by
      have := hb e (List.mem_cons_self _ _)
      omega
    simp only [storeGet, if_neg he]
    exact ih (fun x hx => hb x (List.mem_cons_of_mem _ hx)) hm

theorem listMin_mem : ∀ {l : List Nat} {m : Nat}, listMin l = some m → m ∈ l := by
  intro l
  induction l with
  | nil => intro m h; cases h
  | cons a as ih =>
    intro m h
    simp only [listMin] at h
    split at h
    · cases h
      exact List.mem_cons_self _ _
    · rename_i b hb
      cases h
      rcases max_choice a b with h2 | h2
      · rcases min_choice a b with h3 | h3
        · rw [h3]; exact List.mem_cons_self _ _
        · rw [h3]; exact List.mem_cons_of_mem _ (ih hb)
      · rcases min_choice a b with h3 | h3
        · rw [h3]; exact List.mem_cons_self _ _
        · rw [h3]; exact List.mem_cons_of_mem _ (ih hb)

theorem listMin_le : ∀ {l : List Nat} {m : Nat}, listMin l = some m →
    ∀ x ∈ l, m ≤ x := by
  intro l
  induction l with
  | nil => intro m h; cases h
  | cons a as ih =>
    intro m h x hx
    simp only [listMin] at h
    split at h
    · rename_i hnone
      cases h
      rcases List.mem_cons.1 hx with rfl | hx2
      · exact le_refl _
      · have : as = [] := by
          cases as with
          | nil => rfl
          | cons b bs => simp only [listMin] at hnone; split at hnone <;> cases hnone
        rw [this] at hx2
        cases hx2
    · rename_i b hb
      cases h
      rcases List.mem_cons.1 hx with rfl | hx2
      · exact min_le_left _ _
      · exact le_trans (min_le_right _ _) (ih hb x hx2)

theorem applyMuts_append_one (c : Store) (ms : List Mutation) (m : Mutation) :
    applyMuts c (ms ++ [m]) = applyMut (applyMuts c ms) m := by
  simp [applyMuts, List.foldl_append]

theorem maskSel_sublist : ∀ (bs : List Bool) (ms : List Mutation),
    List.Sublist (maskSel bs ms) ms := by
  intro bs
  induction bs with
  | nil =>
    intro ms
    cases ms with
    | nil => exact List.Sublist.refl _
    | cons m ms2 => exact List.nil_sublist _
  | cons b bs2 ih =>
    intro ms
    cases ms with
    | nil => exact List.Sublist.refl _
    | cons m ms2 =>
      simp only [maskSel]
      split
      · exact List.Sublist.cons₂ m (ih ms2)
      · exact List.Sublist.cons m (ih ms2)

/-! ### Allocator monotonicity -/

theorem step_lastAlloc_mono (st : WDB) (op : Op) :
    st.lastAlloc ≤ (step st op).st.lastAlloc := by
  cases op with
  | addDoc d => simp [step]
  | deleteId did => simp [step]
  | deleteTerm t => simp [step]
  | replaceId did d => simp [step]
  | replaceTerm t d =>
    simp only [step]
    cases minMatch (view st) t <;> simp
  | flushOp o =>
    simp only [step]
    split
    · cases o <;> simp
    · simp
  | beginTxn f =>
    simp only [step]
    split
    · split <;> simp
    · simp
  | commitTxn o =>
    simp only [step]
    cases st.txn
    · simp
    · cases o <;> simp
    · simp
  | cancelTxn =>
    simp only [step]
    split <;> simp

theorem runOps_lastAlloc_mono : ∀ (ops : List Op) (st : WDB),
    st.lastAlloc ≤ (runOps st ops).lastAlloc := by
  intro ops
  induction ops with
  | nil => intro st; exact le_refl _
  | cons op ops2 ih =>
    intro st
    exact le_trans (step_lastAlloc_mono st op) (ih (step st op).st)

/-! ### Claim theorems for the write path -/

/-- C3: replace_document(term, doc).  When documents are indexed by the term
at flush time, exactly the one with the lowest docid is replaced and every
other document is left unchanged; when none are, the call is observably
identical to add_document, including the returned docid. -/
theorem c3_replace_by_term (st : WDB) (t : Term) (d : DocTerms) :
    (∀ m, minMatch (view st) t = some m →
      (step st (.replaceTerm t d)).ret = some m ∧
      m ∈ indexedBy (view st) t ∧
      (∀ j ∈ indexedBy (view st) t, m ≤ j) ∧
      view (step st (.replaceTerm t d)).st = storeSet (view st) m d ∧
      storeGet (view (step st (.replaceTerm t d)).st) m = some d ∧
      (∀ j, j ≠ m →
        storeGet (view (step st (.replaceTerm t d)).st) j = storeGet (view st) j)) ∧
    (minMatch (view st) t = none →
      (step st (.replaceTerm t d)).ret = (step st (.addDoc d)).ret ∧
      view (step st (.replaceTerm t d)).st = view (step st (.addDoc d)).st ∧
      (step st (.replaceTerm t d)).st.committed = (step st (.addDoc d)).st.committed ∧
      (step st (.replaceTerm t d)).st.lastAlloc = (step st (.addDoc d)).st.lastAlloc ∧
      (step st (.replaceTerm t d)).st.txn = (step st (.addDoc d)).st.txn ∧
      (step st (.replaceTerm t d)).err = (step st (.addDoc d)).err) := by
  constructor
  · intro m hm
    have hstep : step st (.replaceTerm t d)
        = ⟨{ st with buffer := st.buffer ++ [.replByTerm t d m] }, some m, none⟩ := by
      simp [step, hm]
    have hview : view (step st (.replaceTerm t d)).st = storeSet (view st) m d := by
      rw [hstep]
      show applyMuts st.committed (st.buffer ++ [.replByTerm t d m]) = _
      rw [applyMuts_append_one]
      show applyMut (view st) (.replByTerm t d m) = _
      simp [applyMut, hm]
    refine ⟨by rw [hstep], listMin_mem hm, fun j hj => listMin_le hm j hj, hview, ?_, ?_⟩
    · rw [hview]
      exact storeGet_set_self _ _ _
    · intro j hj
      rw [hview]
      exact storeGet_set_other _ _ _ _ hj
  · intro hm
    have hstep : step st (.replaceTerm t d)
        = ⟨{ st with
              buffer := st.buffer ++ [.replByTerm t d (st.lastAlloc + 1)]
              lastAlloc := st.lastAlloc + 1 }, some (st.lastAlloc + 1), none⟩ := by
      simp [step, hm]
    have hview : view (step st (.replaceTerm t d)).st
        = view (step st (.addDoc d)).st := by
      rw [hstep]
      show applyMuts st.committed (st.buffer ++ [.replByTerm t d (st.lastAlloc + 1)])
        = applyMuts st.committed (st.buffer ++ [.add (st.lastAlloc + 1) d])
      rw [applyMuts_append_one, applyMuts_append_one]
      show applyMut (view st) _ = applyMut (view st) _
      simp [applyMut, hm]
    refine ⟨by rw [hstep]; rfl, hview, by rw [hstep]; rfl, by rw [hstep]; rfl,
      by rw [hstep]; rfl, by rw [hstep]; rfl⟩

/-- C4: with mutations buffered but unflushed, begin_transaction(false),
further mutations, then cancel_transaction discards both the transaction's
mutations and every mutation buffered before it: after close and reopen the
store is exactly the previously committed one and neither added document is
present. -/
theorem c4_unflushed_cancel_discards (st : WDB) (A B : DocTerms)
    (hidle : st.txn = .idle)
    (hbound : ∀ e ∈ st.committed, e.1 ≤ st.lastAlloc) :
    (runOps st [.addDoc A, .beginTxn false, .addDoc B, .cancelTxn]).committed
      = st.committed ∧
    (runOps st [.addDoc A, .beginTxn false, .addDoc B, .cancelTxn]).buffer = [] ∧
    (runOps st [.addDoc A, .beginTxn false, .addDoc B, .cancelTxn]).txn = .idle ∧
    view (runOps st [.addDoc A, .beginTxn false, .addDoc B, .cancelTxn])
      = st.committed ∧
    storeGet (view (runOps st [.addDoc A, .beginTxn false, .addDoc B, .cancelTxn]))
      (st.lastAlloc + 1) = none ∧
    storeGet (view (runOps st [.addDoc A, .beginTxn false, .addDoc B, .cancelTxn]))
      (st.lastAlloc + 2) = none := by
  have hrun : runOps st [.addDoc A, .beginTxn false, .addDoc B, .cancelTxn]
      = { st with
          buffer := []
          lastAlloc := st.lastAlloc + 2
          txn := .idle } := by
    simp [runOps, step, hidle]
  have hview : view (runOps st [.addDoc A, .beginTxn false, .addDoc B, .cancelTxn])
      = st.committed := by
    rw [hrun]
    rfl
  refine ⟨by rw [hrun], by rw [hrun], by rw [hrun], hview, ?_, ?_⟩
  · rw [hview]
    exact storeGet_none_of_big hbound (by omega)
  · rw [hview]
    exact storeGet_none_of_big hbound (by omega)

/-- C5: successive add_document calls return strictly increasing docids
across any intervening calls (flushes included); the allocator is monotone
under every call and preserved exactly by flush, so a docid once used is
never allocated again after a deletion. -/
theorem c5_docid_monotonic (st : WDB) (d d2 : DocTerms) (ops : List Op) (a b : Nat)
    (ha : (step st (.addDoc d)).ret = some a)
    (hb : (step (runOps (step st (.addDoc d)).st ops) (.addDoc d2)).ret = some b) :
    a < b ∧ (∀ op, st.lastAlloc ≤ (step st op).st.lastAlloc) ∧
    (∀ o, (step st (.flushOp o)).st.lastAlloc = st.lastAlloc) := by
  have ha2 : a = st.lastAlloc + 1 := by
    have h0 : (step st (.addDoc d)).ret = some (st.lastAlloc + 1) := rfl
    rw [h0, Option.some.injEq] at ha
    omega
  have hstep1 : (step st (.addDoc d)).st.lastAlloc = st.lastAlloc + 1 := rfl
  have hmono := runOps_lastAlloc_mono ops (step st (.addDoc d)).st
  have hb2 : b = (runOps (step st (.addDoc d)).st ops).lastAlloc + 1 := by
    have h0 : (step (runOps (step st (.addDoc d)).st ops) (.addDoc d2)).ret
        = some ((runOps (step st (.addDoc d)).st ops).lastAlloc + 1) := rfl
    rw [h0, Option.some.injEq] at hb
    omega
  refine ⟨by omega, step_lastAlloc_mono st, ?_⟩
  intro o
  simp only [step]
  split
  · cases o <;> simp
  · simp

/-- C6: flush.  On success every buffered record has been applied and the
buffer is empty; on failure the resulting committed store is the committed
store with some sublist of the records applied — each record applied in
full or not at all — and the failure is reported. -/
theorem c6_flush_contract (st : WDB) (mask : List Bool) (h : st.txn = .idle) :
    ((step st (.flushOp .ok)).st.committed = applyMuts st.committed st.buffer ∧
     (step st (.flushOp .ok)).st.buffer = [] ∧
     (step st (.flushOp .ok)).err = none) ∧
    (∃ sub, List.Sublist sub st.buffer ∧
      (step st (.flushOp (.fail mask))).st.committed = applyMuts st.committed sub ∧
      (step st (.flushOp (.fail mask))).st.lastAlloc = st.lastAlloc ∧
      (step st (.flushOp (.fail mask))).err = some .databaseError) := by
  constructor
  · refine ⟨?_, ?_, ?_⟩ <;> simp [step, h, view]
  · exact ⟨maskSel mask st.buffer, maskSel_sublist mask st.buffer,
      by simp [step, h], by simp [step, h], by simp [step, h]⟩

/-- C7: the transaction state machine raises InvalidOperationError exactly
on misuse — nested begin, commit or cancel with none active, flush during a
transaction — and commit and cancel always return the state to Idle, a
failing internal flush during commit still being reported. -/
theorem c7_txn_state_machine (st : WDB) (f : Bool) (o : FlushOutcome)
    (mask : List Bool) :
    (st.txn ≠ .idle → step st (.beginTxn f) = ⟨st, none, some .invalidOperation⟩) ∧
    (st.txn = .idle → step st (.commitTxn o) = ⟨st, none, some .invalidOperation⟩) ∧
    (st.txn = .idle → step st .cancelTxn = ⟨st, none, some .invalidOperation⟩) ∧
    (st.txn ≠ .idle → step st (.flushOp o) = ⟨st, none, some .invalidOperation⟩) ∧
    (st.txn = .idle → (step st (.beginTxn f)).err = none) ∧
    (st.txn = .idle → (step st (.flushOp .ok)).err = none) ∧
    (st.txn ≠ .idle → (step st (.commitTxn o)).st.txn = .idle) ∧
    (st.txn ≠ .idle →
      (step st .cancelTxn).st.txn = .idle ∧ (step st .cancelTxn).err = none) ∧
    (st.txn = .activeFlushed →
      (step st (.commitTxn (.fail mask))).st.txn = .idle ∧
      (step st (.commitTxn (.fail mask))).err = some .databaseError) := by
  refine ⟨?_, ?_, ?_, ?_, ?_, ?_, ?_, ?_, ?_⟩
  · intro h
    simp [step, h]
  · intro h
    simp [step, h]
  · intro h
    simp [step, h]
  · intro h
    simp [step, h]
  · intro h
    cases f <;> simp [step, h]
  · intro h
    simp [step, h]
  · intro h
    cases htxn : st.txn
    · exact absurd htxn h
    · cases o <;> simp [step, htxn]
    · simp [step, htxn]
  · intro h
    cases htxn : st.txn
    · exact absurd htxn h
    · simp [step, htxn]
    · simp [step, htxn]
  · intro h
    constructor <;> simp [step, h]

/-- C8: replace_document(did, doc) with did above the allocator advances the
allocator to did, so the next automatically allocated docid is did + 1; the
call never raises an error for any did — the id-space overrun is not
prevented. -/
theorem c8_replace_advances_allocator (st : WDB) (did : Nat) (d d2 : DocTerms)
    (h : st.lastAlloc < did) :
    (step st (.replaceId did d)).st.lastAlloc = did ∧
    (step st (.replaceId did d)).err = none ∧
    (∀ did2 d3, (step st (.replaceId did2 d3)).err = none) ∧
    (step (step st (.replaceId did d)).st (.addDoc d2)).ret = some (did + 1) := by
  refine ⟨?_, by simp [step], fun did2 d3 => by simp [step], ?_⟩
  · simp only [step]
    omega
  · simp only [step, Option.some.injEq]
    omega

/-- Modelled from the destructor doc comment: destroying the last handle
aborts a transaction in progress as if cancel_transaction had been called,
and otherwise closes the database, flushing the buffer. -/
def destructorResult (st : WDB) : Store :=
  if st.txn = .idle then applyMuts st.committed st.buffer else st.committed

/-- Closing a database flushes the buffered records. -/
def closeResult (st : WDB) : Store := applyMuts st.committed st.buffer

/-- C10: destroying the last handle while a transaction is in progress
yields exactly the store produced by cancel_transaction followed by close:
the pending modifications — buffer included — are discarded, not
committed. -/
theorem c10_destructor_aborts (st : WDB) (h : st.txn ≠ .idle) :
    destructorResult st = closeResult (step st .cancelTxn).st ∧
    destructorResult st = st.committed ∧
    (step st .cancelTxn).st.txn = .idle := by
  have hres : destructorResult st = st.committed := by
    simp [destructorResult, h]
  refine ⟨?_, hres, by simp [step, h]⟩
  rw [hres]
  simp [step, h, closeResult, applyMuts]

/-! ### Concrete writable states used by the witnesses -/

/-- Three committed documents, all indexed by term 88, ids 3, 7, 9. -/
def sampleWDB : WDB where
  committed := [(3, [[88]]), (7, [[88]]), (9, [[88]])]
  buffer := []
  lastAlloc := 9
  txn := .idle

/-- Two buffered, unflushed adds. -/
def sampleWDB2 : WDB where
  committed := []
  buffer := [.add 1 [[70]], .add 2 [[71]]]
  lastAlloc := 2
  txn := .idle

/-- An unflushed transaction in progress over a buffered add. -/
def sampleWDBtxn : WDB where
  committed := [(1, [[70]])]
  buffer := [.add 2 [[71]]]
  lastAlloc := 2
  txn := .activeUnflushed

theorem c3_replace_by_term_witness :
    minMatch (view sampleWDB) [88] = some 3 ∧
    (step sampleWDB (.replaceTerm [88] [[89]])).ret = some 3 ∧
    storeGet (view (step sampleWDB (.replaceTerm [88] [[89]])).st) 7
      = storeGet (view sampleWDB) 7 ∧
    storeGet (view (step sampleWDB (.replaceTerm [88] [[89]])).st) 3 = some [[89]] := by
  have h := (c3_replace_by_term sampleWDB [88] [[89]]).1 3 (by decide)
  exact ⟨by decide, h.1, h.2.2.2.2.2 7 (by decide), h.2.2.2.2.1⟩

theorem c4_unflushed_cancel_discards_witness :
    sampleWDB.txn = TxnState.idle ∧
    (runOps sampleWDB [.addDoc [[65]], .beginTxn false, .addDoc [[66]], .cancelTxn]).committed
      = sampleWDB.committed ∧
    storeGet (view (runOps sampleWDB
      [.addDoc [[65]], .beginTxn false, .addDoc [[66]], .cancelTxn]))
      (sampleWDB.lastAlloc + 1) = none := by
  have h := c4_unflushed_cancel_discards sampleWDB [[65]] [[66]] (by decide) (by decide)
  exact ⟨by decide, h.1, h.2.2.2.2.1⟩

theorem c5_docid_monotonic_witness :
    (step sampleWDB (.addDoc [[65]])).ret = some 10 ∧
    (step (runOps (step sampleWDB (.addDoc [[65]])).st [.flushOp .ok])
      (.addDoc [[66]])).ret = some 11 ∧
    (10 : Nat) < 11 := by
  have h := c5_docid_monotonic sampleWDB [[65]] [[66]] [.flushOp .ok] 10 11
    (by decide) (by decide)
  exact ⟨by decide, by decide, h.1⟩

theorem c6_flush_contract_witness :
    sampleWDB2.txn = TxnState.idle ∧
    (step sampleWDB2 (.flushOp .ok)).st.buffer = [] ∧
    (step sampleWDB2 (.flushOp .ok)).st.committed
      = applyMuts sampleWDB2.committed sampleWDB2.buffer ∧
    (step sampleWDB2 (.flushOp (.fail [true, false]))).err = some .databaseError := by
  have h := c6_flush_contract sampleWDB2 [true, false] (by decide)
  obtain ⟨sub, hsub, hc, hl, herr⟩ := h.2
  exact ⟨by decide, h.1.2.1, h.1.1, herr⟩

theorem c7_txn_state_machine_witness :
    sampleWDBtxn.txn ≠ TxnState.idle ∧
    sampleWDB.txn = TxnState.idle ∧
    step sampleWDBtxn (.beginTxn true) = ⟨sampleWDBtxn, none, some .invalidOperation⟩ ∧
    step sampleWDB (.commitTxn .ok) = ⟨sampleWDB, none, some .invalidOperation⟩ ∧
    (step sampleWDBtxn (.commitTxn .ok)).st.txn = TxnState.idle := by
  have h1 := c7_txn_state_machine sampleWDBtxn true FlushOutcome.ok []
  have h2 := c7_txn_state_machine sampleWDB true FlushOutcome.ok []
  refine ⟨by decide, by decide, h1.1 (by decide), h2.2.1 (by decide), ?_⟩
  exact h1.2.2.2.2.2.2.1 (by decide)

theorem c8_replace_advances_allocator_witness :
    sampleWDB.lastAlloc < 100 ∧
    (step sampleWDB (.replaceId 100 [[90]])).st.lastAlloc = 100 ∧
    (step (step sampleWDB (.replaceId 100 [[90]])).st (.addDoc [[91]])).ret
      = some 101 := by
  have h := c8_replace_advances_allocator sampleWDB 100 [[90]] [[91]] (by decide)
  exact ⟨by decide, h.1, h.2.2.2⟩

theorem c10_destructor_aborts_witness :
    sampleWDBtxn.txn ≠ TxnState.idle ∧
    destructorResult sampleWDBtxn = sampleWDBtxn.committed ∧
    destructorResult sampleWDBtxn = closeResult (step sampleWDBtxn .cancelTxn).st := by
  have h := c10_destructor_aborts sampleWDBtxn (by decide)
  exact ⟨by decide, h.2.1, h.1⟩

end Xapian
